import Mathlib

/-!
# Verification of the neural-lm recurrent language-model core

Shallow embedding of `src/models/rnnlm.py` (classes `RNNEncoder` and `RNNLM`).
The repository modules `models/rnn.py` (`StackedRNNLayer`),
`models/adaptive_softmax.py` (`AdaptiveLogSoftmax`) and
`models/label_smoothing.py` (`LabelSmoothingLoss`) are not part of the source
tree; where a property depends on them they are modelled from the
specification, and each such definition says so in its doc comment.

Tensors are modelled as nested lists; floating-point values as real numbers.
Batch-major layouts are `List` over batch elements, time-major layouts `List`
over timesteps, exactly following the `transpose(0, 1)` calls of the source.
-/

namespace NeuralLM

/-- Modelled from the spec: `models/rnn.py` is not under `src/`. Spec section 4.2
says the stacked encoder is polymorphic over the cell type "behind a uniform
state/transition interface": a cell is an initial state, a transition function
from a layer input and a prior state to a candidate state, and the projection
of a state to the vector handed to the next layer. GRU-style cells and
LSTM-style cells are particular instances. -/
structure Cell (V σ : Type) where
  initState : σ
  trans : V → σ → σ
  outv : σ → V

/-- Modelled from the spec: the per-timestep selection primitive of spec sections
4.2 and 9 — keep the old state where the padding bit is true, else the
candidate. -/
def select {σ : Type} (p : Bool) (old cand : σ) : σ :=
  if p then old else cand

/-- Modelled from the spec: one batch element, one timestep through every layer
of the stack. Each layer computes its candidate state from the incoming vector
and its prior state, `select` applies the padding bit, and the selected state's
output vector feeds the next layer. Returns the top output and the new
per-layer states. -/
def elemStep {V σ : Type} (p : Bool) : V → List (Cell V σ) → List σ → V × List σ
  | x, [], ss => (x, ss)
  | x, _ :: _, [] => (x, [])
  | x, c :: cs, s :: rest =>
    let s1 := select p s (c.trans x s)
    let r := elemStep p (c.outv s1) cs rest
    (r.1, s1 :: r.2)

/-- Modelled from the spec: one timestep across the batch; the selection is
applied independently per batch element (spec section 4.2). `xs` is the
timestep's input vector per element, `ps` the mask row, `sss` the per-element
per-layer states. -/
def batchStep {V σ : Type} (cells : List (Cell V σ)) :
    List V → List Bool → List (List σ) → List V × List (List σ)
  | x :: xs, p :: ps, ss :: sss =>
    let e := elemStep p x cells ss
    let r := batchStep cells xs ps sss
    (e.1 :: r.1, e.2 :: r.2)
  | _, _, _ => ([], [])

/-- Modelled from the spec: `step(embedded_input[1,B,D], mask[1,B,1],
prior_state)` of spec section 4.2 — the single-timestep stateful entry point.
It applies the identical per-timestep logic (`batchStep`) to exactly one
timestep, accepting and returning explicit state, with the output carrying a
time dimension of one. -/
def stepRNN {V σ : Type} (cells : List (Cell V σ)) (x : List V) (p : List Bool)
    (s : List (List σ)) : List (List V) × List (List σ) :=
  let r := batchStep cells x p s
  ([r.1], r.2)

/-- Modelled from the spec: `encode_sequence(embedded_input[T,B,D], mask[T,B,1])`
of spec section 4.2 — the full-sequence mode, recursing over the time-major
input and mask rows and threading the per-element per-layer states, returning
the per-timestep outputs and the final states. Dropout between layers is the
identity here (the equivalence contract is an inference-mode property, where
dropout is disabled). -/
def encodeSequence {V σ : Type} (cells : List (Cell V σ)) :
    List (List V) → List (List Bool) → List (List σ) → List (List V) × List (List σ)
  | x :: xs, p :: ps, s =>
    let r := batchStep cells x p s
    let rest := encodeSequence cells xs ps r.2
    (r.1 :: rest.1, rest.2)
  | _, _, s => ([], s)

/-- The caller's loop of spec section 4.2: call `stepRNN` once per timestep,
thread the returned state back in as the prior state of the next call, and
collect the returned outputs in order. -/
def threadSteps {V σ : Type} (cells : List (Cell V σ)) :
    List (List V) → List (List Bool) → List (List σ) → List (List V) →
      List (List V) × List (List σ)
  | x :: xs, p :: ps, s, acc =>
    let r := stepRNN cells x p s
    threadSteps cells xs ps r.2 (acc ++ r.1)
  | _, _, s, acc => (acc, s)

/-- Embeds `torch.max(seq_len)` (line 56 of `src/models/rnnlm.py`) on a
nonnegative integer tensor. -/
def maxList (l : List ℕ) : ℕ := l.foldr max 0

/-- Embeds lines 56-58 of `src/models/rnnlm.py`:
`ids = torch.arange(0, max_seq_len, 1)` and
`padding = seq_len.unsqueeze(1) < ids`, a batch-major `[batch, max_seq_len]`
boolean tensor whose entry at `(b, t)` is `seq_len[b] < t`. -/
def paddingMask (seqLen : List ℕ) : List (List Bool) :=
  seqLen.map fun len => (List.range (maxList seqLen)).map fun t => decide (len < t)

/-- Embeds line 60 of `src/models/rnnlm.py`: the transpose
`padding.transpose(0, 1)` of `paddingMask` to time-major `[time, batch]`
layout (the trailing `unsqueeze(2)` broadcast dimension is dropped because a
mask entry is a single boolean). -/
def timeMajorMask (seqLen : List ℕ) : List (List Bool) :=
  (List.range (maxList seqLen)).map fun t => seqLen.map fun len => decide (len < t)

/-- Embeds `tensor.transpose(0, 1)` on a `[d0, d1, ...]` tensor modelled as a
list of rows: row `t` of the result collects entry `t` of every input row. For
the rectangular tensors of the source this is the usual transpose. -/
def transposeRows {α : Type} (xss : List (List α)) : List (List α) :=
  (List.range (maxList (xss.map List.length))).map fun t =>
    xss.filterMap fun row => row.get? t

/-- Log-softmax over one logit vector: `x_i - log (sum_j exp x_j)`. This is the
normalization both `nn.LogSoftmax` and the spec's adaptive layer apply along
the class dimension. -/
noncomputable def logSoftmaxList (l : List ℝ) : List ℝ :=
  l.map fun x => x - Real.log ((l.map Real.exp).sum)

/-- Modelled from the spec: `models/adaptive_softmax.py` is not under `src/`.
Spec section 4.3: the dense output of the adaptive log-softmax. `head` holds
`cutoff` token logits followed by one synthetic cluster-selector logit per tail
cluster; each tail cluster contributes `log P(cluster | head) + log P(class |
cluster)`. The result is the full dense log-probability row over the
vocabulary. -/
noncomputable def adaptiveDense (cutoff : ℕ) (head : List ℝ) (tails : List (List ℝ)) : List ℝ :=
  let headLP := logSoftmaxList head
  headLP.take cutoff ++
    (List.zipWith (fun sel tailLogits =>
      (logSoftmaxList tailLogits).map fun x => sel + x) (headLP.drop cutoff) tails).flatten

/-- The failures the embedded forward passes can raise. `assertionError` is the
batch-size assert of `RNNLM.forward` (lines 133-135). The other two record how
the projection head of `RNNEncoder` fails in plain-linear mode: line 44 builds
`nn.LogSoftmax(dim=vocab_size)`; line 70 calls it as `self.log_softmax(o,
dim=2)`, and `nn.LogSoftmax.forward` accepts no `dim` keyword, so the call
raises a `TypeError`; line 94 calls it as `self.log_softmax(o)`, where the
configured `dim = vocab_size` is out of range for the 3-dimensional input
whenever `vocab_size > 2`. -/
inductive TorchError where
  | assertionError
  | forwardUnexpectedKeywordDim
  | logSoftmaxDimOutOfRange

/-- The attributes `RNNEncoder.__init__` (lines 13-44 of `src/models/rnnlm.py`)
stores on the module: the embedding table (`lookup`), the stacked recurrent
layers (`cells`, modelled from the spec since `models/rnn.py` is not under
`src/`), the mode flag `adaptive_softmax`, the plain projection `out` and, in
adaptive mode, the head and tail projections of the modelled
`AdaptiveLogSoftmax`. `V` is the type of embedding/hidden vectors; a layer
state is a pair of `List W` vectors (the `(state_m, state_c)` interface of
`forward_step`), of which GRU-style cells use only the first component. -/
structure RNNEncoder (V W : Type) where
  vocabSize : ℕ
  lookup : ℕ → V
  cells : List (Cell V (List W × List W))
  adaptiveSoftmax : Bool
  outLinear : V → List ℝ
  cutoff : ℕ
  headLinear : V → List ℝ
  tailLinears : List (V → List ℝ)

/-- Pairs the caller's two state tensors `(state_m, state_c)` (batch-major, one
list of per-layer vectors per element) into the per-element per-layer pair
states the modelled stack consumes. -/
def zipStates {W : Type} (sm sc : List (List (List W))) :
    List (List (List W × List W)) :=
  List.zipWith (List.zipWith fun m c => (m, c)) sm sc

/-- Splits the stack's per-element per-layer pair states back into the two
state tensors returned to the caller. -/
def unzipStates {W : Type} (s : List (List (List W × List W))) :
    List (List (List W)) × List (List (List W)) :=
  (s.map (List.map Prod.fst), s.map (List.map Prod.snd))

/-- States at sequence start for the full-sequence mode: spec section 3 says
hidden state is zero-initialized at sequence start, modelled by each cell's
`initState`, replicated per batch element. -/
def startStates {V W : Type} (cfg : RNNEncoder V W) (input : List (List ℕ)) :
    List (List (List W × List W)) :=
  input.map fun _ => cfg.cells.map fun c => c.initState

/-- Embeds `RNNEncoder.forward` (lines 46-71 of `src/models/rnnlm.py`): embed
the ids, build the padding mask from `seq_len`, transpose both to time-major,
run the stacked recurrent layers from the start states, transpose the output
back to batch-major and apply the projection head. In adaptive mode the head
is the modelled dense `AdaptiveLogSoftmax` applied per position (the `dim=2`
argument passed at line 70 is not part of the spec's contract for that module
and is ignored by the model). In plain-linear mode line 70 passes the keyword
argument `dim=2` to `nn.LogSoftmax.forward`, which accepts none, so the call
raises; the model returns `forwardUnexpectedKeywordDim` there. -/
noncomputable def RNNEncoder.forward {V W : Type} (cfg : RNNEncoder V W) (input : List (List ℕ))
    (seqLen : List ℕ) : Except TorchError (List (List (List ℝ))) :=
  let emb := input.map fun row => row.map cfg.lookup
  let mask := timeMajorMask seqLen
  let embT := transposeRows emb
  let r := encodeSequence cfg.cells embT mask (startStates cfg input)
  if cfg.adaptiveSoftmax then
    Except.ok ((transposeRows r.1).map fun row => row.map fun h =>
      adaptiveDense cfg.cutoff (cfg.headLinear h) (cfg.tailLinears.map fun f => f h))
  else
    Except.error TorchError.forwardUnexpectedKeywordDim

/-- Embeds `RNNEncoder.forward_step` (lines 73-95 of `src/models/rnnlm.py`):
identical to `forward` except that the caller's `(state_m, state_c)` pair is
threaded into the stacked layers and the new state pair is returned. In
plain-linear mode line 94 applies `nn.LogSoftmax` built with `dim =
vocab_size` to the 3-dimensional output, which is out of range for every
vocabulary size above 2; the model returns `logSoftmaxDimOutOfRange` there
(vocabulary sizes of at most 2 are degenerate and not modelled). -/
noncomputable def RNNEncoder.forwardStep {V W : Type} (cfg : RNNEncoder V W)
    (input : List (List ℕ)) (seqLen : List ℕ)
    (stateM stateC : List (List (List W))) :
    Except TorchError
      (List (List (List ℝ)) × List (List (List W)) × List (List (List W))) :=
  let emb := input.map fun row => row.map cfg.lookup
  let mask := timeMajorMask seqLen
  let embT := transposeRows emb
  let r := encodeSequence cfg.cells embT mask (zipStates stateM stateC)
  let s := unzipStates r.2
  if cfg.adaptiveSoftmax then
    Except.ok ((transposeRows r.1).map fun row => row.map fun h =>
      adaptiveDense cfg.cutoff (cfg.headLinear h) (cfg.tailLinears.map fun f => f h),
      s.1, s.2)
  else
    Except.error TorchError.logSoftmaxDimOutOfRange

/-- Modelled from the spec: `models/label_smoothing.py` is not under `src/`.
The constructor arguments of `LabelSmoothingLoss(vocab_size, ignore_id,
lsm_weight, length_normalized_loss)` as passed at lines 116-117 of
`src/models/rnnlm.py`. -/
structure LabelSmoothingLoss where
  vocabSize : ℕ
  ignoreId : ℤ
  smoothing : ℝ
  lengthNormalized : Bool

/-- Cross-entropy of a target distribution against a log-probability row:
`-(sum_j dist_j * logp_j)`. -/
noncomputable def crossEntropy (dist logp : List ℝ) : ℝ :=
  -(List.zipWith (fun d l => d * l) dist logp).sum

/-- Modelled from the spec (section 4.4): the smoothed target distribution —
mass `1 - eps` on the true class and `eps` spread uniformly over the remaining
`vocab - 1` classes. -/
noncomputable def smoothedTarget (vocab : ℕ) (eps : ℝ) (target : ℤ) : List ℝ :=
  (List.range vocab).map fun j =>
    if (j : ℤ) = target then 1 - eps else eps / ((vocab : ℝ) - 1)

/-- Modelled from the spec (section 4.4): the loss contribution of one
position — exactly zero when the label is the ignore id, else the
cross-entropy of the smoothed target against the position's log-probability
row. -/
noncomputable def positionLoss (L : LabelSmoothingLoss) (logp : List ℝ) (lbl : ℤ) : ℝ :=
  if lbl = L.ignoreId then 0
  else crossEntropy (smoothedTarget L.vocabSize L.smoothing lbl) logp

/-- Modelled from the spec (section 4.4): the sum of one sequence's
per-position loss contributions. -/
noncomputable def seqLossSum (L : LabelSmoothingLoss) (logps : List (List ℝ))
    (lbls : List ℤ) : ℝ :=
  (List.zipWith (positionLoss L) logps lbls).sum

/-- Modelled from the spec (section 4.4): the number of non-ignored positions
of one sequence, the normalization count in length-normalized mode. -/
def seqCount (L : LabelSmoothingLoss) (lbls : List ℤ) : ℕ :=
  (lbls.filter fun x => decide (x ≠ L.ignoreId)).length

/-- Modelled from the spec (section 4.4): the per-sequence loss — the sum of
the sequence's non-ignored contributions, divided by the non-ignored count in
length-normalized mode. Spec section 4.4's edge case fixes the value for a
sequence with zero non-ignored positions at exactly 0; the real-number model
agrees since the numerator is then 0. -/
noncomputable def perSeqLoss (L : LabelSmoothingLoss) (logps : List (List ℝ))
    (lbls : List ℤ) : ℝ :=
  if L.lengthNormalized then seqLossSum L logps lbls / (seqCount L lbls : ℝ)
  else seqLossSum L logps lbls

/-- Modelled from the spec (section 4.4): `loss(log_probs[B,T,V], targets[B,T])
→ (scalar_loss, per_sequence_loss[B])`. The scalar is the sum of the
per-sequence sums, divided by the total non-ignored count across the batch in
length-normalized mode. -/
noncomputable def LabelSmoothingLoss.forward (L : LabelSmoothingLoss)
    (logits : List (List (List ℝ))) (labels : List (List ℤ)) : ℝ × List ℝ :=
  let perSeq := List.zipWith (perSeqLoss L) logits labels
  let sums := List.zipWith (seqLossSum L) logits labels
  let total := (labels.map fun lb => (seqCount L lb : ℝ)).sum
  (if L.lengthNormalized then sums.sum / total else sums.sum, perSeq)

/-- The interface of an injected `lm_encoder` module: its full-sequence call
and its `forward_step` call, both of which may raise. `S` is the type of one
state tensor of the step interface. -/
abbrev EncoderModule (S : Type) : Type :=
  (List (List ℕ) → List ℕ → Except TorchError (List (List (List ℝ)))) ×
  (List (List ℕ) → List ℕ → S → S →
    Except TorchError (List (List (List ℝ)) × S × S))

/-- The attributes `RNNLM.__init__` (lines 102-117 of `src/models/rnnlm.py`)
stores: the injected `lm_encoder` module (its full-sequence call and its
`forward_step`, both of which may raise), the normalization flag and the loss
criterion. `S` is the type of one state tensor of the encoder's step
interface. -/
structure RNNLM (S : Type) where
  model : List (List ℕ) → List ℕ → Except TorchError (List (List (List ℝ)))
  modelStep : List (List ℕ) → List ℕ → S → S →
    Except TorchError (List (List (List ℝ)) × S × S)
  lengthNormalizedLoss : Bool
  criterion : LabelSmoothingLoss

/-- Embeds `RNNLM.__init__(vocab_size, lm_encoder, lsm_weight,
length_normalized_loss)` (lines 102-117): the criterion is always built as
`LabelSmoothingLoss(vocab_size, -1, lsm_weight, length_normalized_loss)` — the
ignore id is the literal `-1` and the constructor exposes no parameter for
it. -/
def mkRNNLM {S : Type} (vocabSize : ℕ) (lmEncoder : EncoderModule S)
    (lsmWeight : ℝ) (lengthNormalizedLoss : Bool) : RNNLM S :=
  { model := lmEncoder.1
    modelStep := lmEncoder.2
    lengthNormalizedLoss := lengthNormalizedLoss
    criterion :=
      { vocabSize := vocabSize
        ignoreId := -1
        smoothing := lsmWeight
        lengthNormalized := lengthNormalizedLoss } }

/-- Embeds `RNNLM.forward` (lines 119-144 of `src/models/rnnlm.py`): assert
that the four batch dimensions agree (else raise), run the encoder, apply the
criterion, and return `(loss, each_seq_loss.exp(), total_ppl)` where
`total_ppl` is `loss.exp()` in length-normalized mode and
`loss * input.size(0) / labels_length.sum()` otherwise (lines 137-144). -/
noncomputable def RNNLM.forward {S : Type} (m : RNNLM S) (input : List (List ℕ))
    (inputLength : List ℕ) (labels : List (List ℤ)) (labelsLength : List ℕ) :
    Except TorchError (ℝ × List ℝ × ℝ) :=
  if input.length = inputLength.length ∧ inputLength.length = labels.length ∧
      labels.length = labelsLength.length then
    (m.model input inputLength).map fun logit =>
      let r := m.criterion.forward logit labels
      (r.1, r.2.map Real.exp,
        if m.lengthNormalizedLoss then Real.exp r.1
        else r.1 * (input.length : ℝ) / (labelsLength.sum : ℝ))
  else Except.error TorchError.assertionError

/-- Embeds `RNNLM.forward_step` (lines 146-153 of `src/models/rnnlm.py`):
`o, s = self.model.forward_step(input, seq_len, state_m, state_c)` followed by
`return o, s[0], s[1]` — the prior state comes in as two tensors and the new
state goes out as the returned pair's two tensors. -/
noncomputable def RNNLM.forwardStep {S : Type} (m : RNNLM S) (input : List (List ℕ))
    (seqLen : List ℕ) (stateM stateC : S) :
    Except TorchError (List (List (List ℝ)) × S × S) :=
  (m.modelStep input seqLen stateM stateC).map fun os => (os.1, os.2.1, os.2.2)

/-- The `lm_encoder` argument `RNNLM` is constructed with when the injected
module is an `RNNEncoder`: its full-sequence forward and its `forward_step`. -/
noncomputable def encoderAsModule {V W : Type} (cfg : RNNEncoder V W) :
    EncoderModule (List (List (List W))) :=
  (RNNEncoder.forward cfg, RNNEncoder.forwardStep cfg)

/-- A concrete accumulator cell over natural numbers, used to evaluate the
modelled stack on concrete inputs: the state accumulates the inputs seen. -/
def accCell : Cell ℕ ℕ :=
  { initState := 0
    trans := fun x s => s + x
    outv := fun s => s }

/-- A concrete plain-linear-mode encoder used to evaluate the embedded forward
pass at a concrete input. -/
noncomputable def plainEncoder : RNNEncoder ℝ ℝ :=
  { vocabSize := 3
    lookup := fun _ => 0
    cells := []
    adaptiveSoftmax := false
    outLinear := fun _ => [0, 0, 0]
    cutoff := 0
    headLinear := fun _ => []
    tailLinears := [] }

/-- A concrete injected encoder module whose full-sequence call returns one
sequence with one position and two vocabulary classes, used to evaluate the
embedded `RNNLM` wrapper at concrete inputs. -/
noncomputable def constEncoderPair : EncoderModule Unit :=
  (fun _ _ => Except.ok [[[0, 0]]], fun _ _ s c => Except.ok ([[[0, 0]]], s, c))

theorem elemStep_states_length {V σ : Type} (p : Bool) (x : V)
    (cells : List (Cell V σ)) (ss : List σ) (h : cells.length ≤ ss.length) :
    ((elemStep p x cells ss).2).length = ss.length := by
  induction cells generalizing x ss with
  | nil => simp [elemStep]
  | cons c cs ih =>
    cases ss with
    | nil => simp at h
    | cons s rest =>
      simp only [elemStep, List.length_cons]
      rw [ih _ rest (by simpa using h)]

theorem elemStep_frozen {V σ : Type} (x : V) (cells : List (Cell V σ))
    (ss : List σ) (h : cells.length ≤ ss.length) :
    (elemStep true x cells ss).2 = ss := by
  induction cells generalizing x ss with
  | nil => simp [elemStep]
  | cons c cs ih =>
    cases ss with
    | nil => simp at h
    | cons s rest =>
      simp only [elemStep, select, if_true, List.cons.injEq, true_and]
      exact ih _ rest (by simpa using h)

theorem batchStep_states_length {V σ : Type} (cells : List (Cell V σ))
    (xs : List V) (ps : List Bool) (sss : List (List σ)) :
    ((batchStep cells xs ps sss).2).length =
      min xs.length (min ps.length sss.length) := by
  induction xs generalizing ps sss with
  | nil => simp [batchStep]
  | cons x xs ih =>
    cases ps with
    | nil => simp [batchStep]
    | cons p ps =>
      cases sss with
      | nil => simp [batchStep]
      | cons ss sss =>
        simp only [batchStep, List.length_cons, ih]
        omega

theorem batchStep_states_get? {V σ : Type} (cells : List (Cell V σ))
    (b : ℕ) (xs : List V) (ps : List Bool) (sss : List (List σ))
    (x : V) (p : Bool) (ss : List σ)
    (hx : xs.get? b = some x) (hp : ps.get? b = some p)
    (hs : sss.get? b = some ss) :
    ((batchStep cells xs ps sss).2).get? b = some ((elemStep p x cells ss).2) := by
  induction b generalizing xs ps sss with
  | zero =>
    cases xs with
    | nil => simp at hx
    | cons x0 xs =>
      cases ps with
      | nil => simp at hp
      | cons p0 ps =>
        cases sss with
        | nil => simp at hs
        | cons ss0 sss =>
          simp only [List.get?] at hx hp hs
          cases hx; cases hp; cases hs
          simp [batchStep]
  | succ b ih =>
    cases xs with
    | nil => simp at hx
    | cons x0 xs =>
      cases ps with
      | nil => simp at hp
      | cons p0 ps =>
        cases sss with
        | nil => simp at hs
        | cons ss0 sss =>
          simp only [List.get?] at hx hp hs
          simpa [batchStep] using ih xs ps sss hx hp hs

theorem batchStep_states_mem {V σ : Type} (cells : List (Cell V σ))
    (xs : List V) (ps : List Bool) (sss : List (List σ)) (es : List σ)
    (h : es ∈ (batchStep cells xs ps sss).2) :
    ∃ p x ss, ss ∈ sss ∧ es = (elemStep p x cells ss).2 := by
  induction xs generalizing ps sss with
  | nil => simp [batchStep] at h
  | cons x xs ih =>
    cases ps with
    | nil => simp [batchStep] at h
    | cons p ps =>
      cases sss with
      | nil => simp [batchStep] at h
      | cons ss sss =>
        simp only [batchStep, List.mem_cons] at h
        rcases h with h | h
        · exact ⟨p, x, ss, List.mem_cons_self _ _, h⟩
        · obtain ⟨p1, x1, ss1, hmem, heq⟩ := ih ps sss h
          exact ⟨p1, x1, ss1, List.mem_cons_of_mem _ hmem, heq⟩

theorem encode_states_length {V σ : Type} (cells : List (Cell V σ)) (B : ℕ)
    (xs : List (List V)) (ps : List (List Bool)) (s : List (List σ))
    (hx : ∀ r ∈ xs, List.length r = B) (hp : ∀ r ∈ ps, List.length r = B)
    (hs : s.length = B) :
    ((encodeSequence cells xs ps s).2).length = B := by
  induction xs generalizing ps s with
  | nil => cases ps <;> simpa [encodeSequence] using hs
  | cons x xs ih =>
    cases ps with
    | nil => simpa [encodeSequence] using hs
    | cons p ps =>
      simp only [encodeSequence]
      apply ih ps _ (fun r hr => hx r (List.mem_cons_of_mem _ hr))
        (fun r hr => hp r (List.mem_cons_of_mem _ hr))
      rw [batchStep_states_length, hx x (List.mem_cons_self _ _),
        hp p (List.mem_cons_self _ _), hs]
      omega

theorem encode_states_wf {V σ : Type} (cells : List (Cell V σ))
    (xs : List (List V)) (ps : List (List Bool)) (s : List (List σ))
    (hwf : ∀ es ∈ s, cells.length ≤ List.length es) :
    ∀ es ∈ (encodeSequence cells xs ps s).2, cells.length ≤ List.length es := by
  induction xs generalizing ps s with
  | nil => cases ps <;> simpa [encodeSequence] using hwf
  | cons x xs ih =>
    cases ps with
    | nil => simpa [encodeSequence] using hwf
    | cons p ps =>
      simp only [encodeSequence]
      apply ih ps
      intro es hes
      obtain ⟨p1, x1, ss1, hmem, heq⟩ := batchStep_states_mem cells x p s es hes
      rw [heq, elemStep_states_length _ _ _ _ (hwf ss1 hmem)]
      exact hwf ss1 hmem

theorem encode_append {V σ : Type} (cells : List (Cell V σ))
    (xs1 : List (List V)) (ps1 : List (List Bool)) (xs2 : List (List V))
    (ps2 : List (List Bool)) (s : List (List σ)) (hlen : xs1.length = ps1.length) :
    encodeSequence cells (xs1 ++ xs2) (ps1 ++ ps2) s =
      ((encodeSequence cells xs1 ps1 s).1 ++
        (encodeSequence cells xs2 ps2 (encodeSequence cells xs1 ps1 s).2).1,
       (encodeSequence cells xs2 ps2 (encodeSequence cells xs1 ps1 s).2).2) := by
  induction xs1 generalizing ps1 s with
  | nil =>
    cases ps1 with
    | nil => simp [encodeSequence]
    | cons p ps => simp at hlen
  | cons x xs ih =>
    cases ps1 with
    | nil => simp at hlen
    | cons p ps =>
      have h2 : xs.length = ps.length := by simpa using hlen
      simp only [List.cons_append, encodeSequence, List.append_eq]
      rw [ih ps _ h2]

theorem encode_frozen_elem {V σ : Type} (cells : List (Cell V σ)) (B b : ℕ)
    (hb : b < B) (xs : List (List V)) (ps : List (List Bool)) (s : List (List σ))
    (hx : ∀ r ∈ xs, List.length r = B) (hp : ∀ r ∈ ps, List.length r = B)
    (hs : s.length = B) (hwf : ∀ es ∈ s, cells.length ≤ List.length es)
    (hmask : ∀ t, t < ps.length → ((ps.getD t []).getD b false) = true) :
    ((encodeSequence cells xs ps s).2).get? b = s.get? b := by
  induction xs generalizing ps s with
  | nil => cases ps <;> simp [encodeSequence]
  | cons x xs ih =>
    cases ps with
    | nil => simp [encodeSequence]
    | cons p ps =>
      simp only [encodeSequence]
      have hxb : b < x.length := by rw [hx x (List.mem_cons_self _ _)]; exact hb
      have hpb : b < p.length := by rw [hp p (List.mem_cons_self _ _)]; exact hb
      have hsb : b < s.length := by rw [hs]; exact hb
      have hxv : x.get? b = some (x.get ⟨b, hxb⟩) := List.get?_eq_get hxb
      have hsv : s.get? b = some (s.get ⟨b, hsb⟩) := List.get?_eq_get hsb
      have hpv : p.get? b = some true := by
        have h0 := hmask 0 (by simp)
        simp only [List.getD_cons_zero] at h0
        rw [List.getD_eq_getD_get?] at h0
        cases hq : p.get? b with
        | none => rw [hq] at h0; simp at h0
        | some pb => rw [hq] at h0; simp at h0; rw [h0]
      have hmem : s.get ⟨b, hsb⟩ ∈ s := List.get_mem s b hsb
      have hfrozen :
          ((batchStep cells x p s).2).get? b = some (s.get ⟨b, hsb⟩) := by
        rw [batchStep_states_get? cells b x p s _ _ _ hxv hpv hsv]
        rw [elemStep_frozen _ _ _ (hwf _ hmem)]
      have hlen2 : ((batchStep cells x p s).2).length = B := by
        rw [batchStep_states_length, hx x (List.mem_cons_self _ _),
          hp p (List.mem_cons_self _ _), hs]
        omega
      have hwf2 : ∀ es ∈ (batchStep cells x p s).2, cells.length ≤ List.length es := by
        intro es hes
        obtain ⟨p1, x1, ss1, hmem1, heq⟩ := batchStep_states_mem cells x p s es hes
        rw [heq, elemStep_states_length _ _ _ _ (hwf ss1 hmem1)]
        exact hwf ss1 hmem1
      rw [ih ps _ (fun r hr => hx r (List.mem_cons_of_mem _ hr))
        (fun r hr => hp r (List.mem_cons_of_mem _ hr)) hlen2 hwf2
        (fun t ht => by
          have := hmask (t + 1) (by simpa using Nat.succ_lt_succ ht)
          simpa using this)]
      rw [hfrozen, hsv]

/-- C5: for every layer of the stacked encoder and every batch element, if the
padding mask is true at every timestep from the valid length on, then the
per-layer states of that element at the end of the sequence are exactly the
states it had after the last valid position — padded positions never apply a
recurrent transition update at any depth. -/
theorem padded_positions_freeze_state {V σ : Type} (cells : List (Cell V σ))
    (B b lv : ℕ) (xs : List (List V)) (ps : List (List Bool)) (s0 : List (List σ))
    (hx : ∀ r ∈ xs, List.length r = B) (hp : ∀ r ∈ ps, List.length r = B)
    (hs : s0.length = B) (hwf : ∀ es ∈ s0, cells.length ≤ List.length es)
    (hb : b < B) (hlen : xs.length = ps.length)
    (hmask : ∀ t, t < ps.length → lv ≤ t → ((ps.getD t []).getD b false) = true) :
    ((encodeSequence cells xs ps s0).2).get? b =
      ((encodeSequence cells (xs.take lv) (ps.take lv) s0).2).get? b := by
  conv_lhs => rw [← List.take_append_drop lv xs, ← List.take_append_drop lv ps]
  rw [encode_append cells _ _ _ _ s0 (by simp [hlen])]
  apply encode_frozen_elem cells B b hb
  · exact fun r hr => hx r (List.drop_subset _ _ hr)
  · exact fun r hr => hp r (List.drop_subset _ _ hr)
  · exact encode_states_length cells B _ _ _
      (fun r hr => hx r (List.take_subset _ _ hr))
      (fun r hr => hp r (List.take_subset _ _ hr)) hs
  · exact encode_states_wf cells _ _ _ hwf
  · intro t ht
    have hget : (List.drop lv ps).get? t = ps.get? (lv + t) := by
      simp [List.get?_eq_getElem?, List.getElem?_drop]
    have hrow : (List.drop lv ps).getD t [] = ps.getD (lv + t) [] := by
      rw [List.getD_eq_getD_get?, List.getD_eq_getD_get?, hget]
    rw [hrow]
    have hlt : lv + t < ps.length := by
      rw [List.length_drop] at ht
      omega
    exact hmask (lv + t) hlt (by omega)

/-- C5 witness: a one-layer accumulator stack over a batch of one element,
three timesteps with valid length 1: the state after all timesteps equals the
state after the first timestep. -/
theorem padded_positions_freeze_state_witness :
    ((encodeSequence [accCell] [[5], [7], [9]] [[false], [true], [true]] [[0]]).2).get? 0 =
      ((encodeSequence [accCell] ([[5], [7], [9]].take 1)
        ([[false], [true], [true]].take 1) [[0]]).2).get? 0 :=
  padded_positions_freeze_state [accCell] 1 0 1 [[5], [7], [9]]
    [[false], [true], [true]] [[0]] (by decide) (by decide) (by decide)
    (by decide) (by decide) (by decide) (by decide)

/-- C2 (evaluation of the code at the failing input): with valid lengths
`[1, 2]` the padding mask built at line 58 of `src/models/rnnlm.py` is all
false; in particular the entry for sequence 0 at position 1 is false although
position 1 is not below that sequence's valid length 1. The code masks
positions `t` with `t > len` instead of `t ≥ len`, so the first padded
position of every short sequence is treated as valid. -/
theorem padding_mask_boundary_eval :
    paddingMask [1, 2] = [[false, false], [false, false]] ∧
      ((paddingMask [1, 2]).getD 0 []).getD 1 true = false := by decide

theorem threadSteps_append {V σ : Type} (cells : List (Cell V σ))
    (xs : List (List V)) (ps : List (List Bool)) (s : List (List σ))
    (acc : List (List V)) :
    threadSteps cells xs ps s acc =
      (acc ++ (encodeSequence cells xs ps s).1, (encodeSequence cells xs ps s).2) := by
  induction xs generalizing ps s acc with
  | nil => cases ps <;> simp [threadSteps, encodeSequence]
  | cons x xs ih =>
    cases ps with
    | nil => simp [threadSteps, encodeSequence]
    | cons p ps => simp [threadSteps, encodeSequence, stepRNN, ih]

/-- C1: for every cell type, every batch, every mask and every input prefix,
calling the single-step path once per timestep while threading the returned
state back in as the prior state produces the same output sequence and the
same final state as one full-sequence `encode_sequence` call over the same
timesteps and mask. -/
theorem step_threading_equiv {V σ : Type} (cells : List (Cell V σ))
    (xs : List (List V)) (ps : List (List Bool)) (s0 : List (List σ)) :
    threadSteps cells xs ps s0 [] = encodeSequence cells xs ps s0 := by
  simp [threadSteps_append]

theorem sum_exp_pos (l : List ℝ) (h : l ≠ []) : 0 < (l.map Real.exp).sum := by
  cases l with
  | nil => simp at h
  | cons a t =>
    simp only [List.map_cons, List.sum_cons]
    have h1 : (0 : ℝ) ≤ (t.map Real.exp).sum := by
      apply List.sum_nonneg
      intro x hx
      simp only [List.mem_map] at hx
      obtain ⟨y, _, rfl⟩ := hx
      exact (Real.exp_pos y).le
    exact add_pos_of_pos_of_nonneg (Real.exp_pos a) h1

theorem sum_map_div_const (l : List ℝ) (f : ℝ → ℝ) (c : ℝ) :
    (l.map fun x => f x / c).sum = (l.map f).sum / c := by
  induction l with
  | nil => simp
  | cons a t ih => simp [ih, add_div]

theorem sum_map_mul_const (l : List ℝ) (c : ℝ) :
    (l.map fun x => c * x).sum = c * l.sum := by
  induction l with
  | nil => simp
  | cons a t ih => simp [ih, mul_add]

theorem sum_exp_logSoftmax (l : List ℝ) (h : l ≠ []) :
    ((logSoftmaxList l).map Real.exp).sum = 1 := by
  have hS := sum_exp_pos l h
  have hrw : (logSoftmaxList l).map Real.exp =
      l.map fun x => Real.exp x / (l.map Real.exp).sum := by
    simp [logSoftmaxList, List.map_map, Function.comp_def, Real.exp_sub,
      Real.exp_log hS]
  rw [hrw, sum_map_div_const, div_self (ne_of_gt hS)]

theorem sum_exp_shifted_cluster (sel : ℝ) (tl : List ℝ) (h : tl ≠ []) :
    ((((logSoftmaxList tl).map fun x => sel + x).map Real.exp)).sum = Real.exp sel := by
  have hrw : ((logSoftmaxList tl).map fun x => sel + x).map Real.exp =
      ((logSoftmaxList tl).map Real.exp).map fun y => Real.exp sel * y := by
    simp [List.map_map, Function.comp_def, Real.exp_add]
  rw [hrw, sum_map_mul_const, sum_exp_logSoftmax tl h, mul_one]

theorem sum_exp_clusters (sels : List ℝ) (tails : List (List ℝ))
    (hlen : sels.length = tails.length) (htails : ∀ tl ∈ tails, tl ≠ []) :
    (((List.zipWith (fun sel tl => (logSoftmaxList tl).map fun x => sel + x)
        sels tails).flatten).map Real.exp).sum = (sels.map Real.exp).sum := by
  induction sels generalizing tails with
  | nil => simp
  | cons a s ih =>
    cases tails with
    | nil => simp at hlen
    | cons tl ts =>
      simp only [List.zipWith_cons_cons, List.flatten_cons, List.map_append,
        List.sum_append, List.map_cons, List.sum_cons]
      rw [sum_exp_shifted_cluster a tl (htails tl (List.mem_cons_self _ _)),
        ih ts (by simpa using hlen)
          (fun x hx => htails x (List.mem_cons_of_mem _ hx))]

/-- Dense adaptive-softmax rows are probability distributions: the
exponentials of one output row of the modelled `AdaptiveLogSoftmax` sum to 1
for every head layout and every family of nonempty tail clusters (spec
sections 4.3 and 8). -/
theorem adaptiveDense_row_sums_one (cutoff : ℕ) (head : List ℝ)
    (tails : List (List ℝ)) (hhead : head ≠ [])
    (hlen : head.length = cutoff + tails.length)
    (htails : ∀ tl ∈ tails, tl ≠ []) :
    ((adaptiveDense cutoff head tails).map Real.exp).sum = 1 := by
  have hdrop : ((logSoftmaxList head).drop cutoff).length = tails.length := by
    simp only [List.length_drop, logSoftmaxList, List.length_map]
    omega
  simp only [adaptiveDense, List.map_append, List.sum_append]
  rw [sum_exp_clusters ((logSoftmaxList head).drop cutoff) tails hdrop htails]
  have hsplit :
      (((logSoftmaxList head).take cutoff).map Real.exp).sum +
        (((logSoftmaxList head).drop cutoff).map Real.exp).sum =
        ((logSoftmaxList head).map Real.exp).sum := by
    rw [← List.sum_append, ← List.map_append, List.take_append_drop]
  rw [hsplit, sum_exp_logSoftmax head hhead]

/-- C3 (evaluation of the code at the failing input): in plain-linear mode the
full-sequence forward pass raises instead of returning log-probabilities —
line 70 of `src/models/rnnlm.py` passes the keyword argument `dim=2` to the
`nn.LogSoftmax` module built at line 44, whose `forward` accepts no such
keyword (and whose configured `dim = vocab_size` would be out of range for the
3-dimensional output anyway). The modelled adaptive path does return rows
whose exponentials sum to 1 (`adaptiveDense_row_sums_one`), but the claim also
covers the plain mode, where every call fails. -/
theorem forward_plain_mode_raises :
    RNNEncoder.forward plainEncoder [[0]] [1] =
      Except.error TorchError.forwardUnexpectedKeywordDim := rfl

theorem mem_zipWith {α β γ : Type} (f : α → β → γ) (as : List α) (bs : List β)
    (y : γ) (h : y ∈ List.zipWith f as bs) :
    ∃ a b, a ∈ as ∧ b ∈ bs ∧ y = f a b := by
  induction as generalizing bs with
  | nil => simp at h
  | cons a as ih =>
    cases bs with
    | nil => simp at h
    | cons b bs =>
      simp only [List.zipWith_cons_cons, List.mem_cons] at h
      rcases h with h | h
      · exact ⟨a, b, List.mem_cons_self _ _, List.mem_cons_self _ _, h⟩
      · obtain ⟨a1, b1, ha, hb, heq⟩ := ih bs h
        exact ⟨a1, b1, List.mem_cons_of_mem _ ha, List.mem_cons_of_mem _ hb, heq⟩

theorem zipWith_get?_eq {α β γ : Type} (f : α → β → γ) (n : ℕ) (as : List α)
    (bs : List β) (a : α) (b : β) (ha : as.get? n = some a)
    (hb : bs.get? n = some b) :
    (List.zipWith f as bs).get? n = some (f a b) := by
  induction n generalizing as bs with
  | zero =>
    cases as with
    | nil => simp at ha
    | cons a0 as =>
      cases bs with
      | nil => simp at hb
      | cons b0 bs =>
        simp only [List.get?] at ha hb
        cases ha; cases hb
        simp [List.zipWith_cons_cons]
  | succ n ih =>
    cases as with
    | nil => simp at ha
    | cons a0 as =>
      cases bs with
      | nil => simp at hb
      | cons b0 bs =>
        simp only [List.get?] at ha hb
        simpa [List.zipWith_cons_cons] using ih as bs ha hb

theorem seqLossSum_all_ignore (L : LabelSmoothingLoss) (lp : List (List ℝ))
    (lbls : List ℤ) (hall : ∀ x ∈ lbls, x = L.ignoreId) :
    seqLossSum L lp lbls = 0 := by
  apply List.sum_eq_zero
  intro y hy
  obtain ⟨a, b, _, hb, heq⟩ := mem_zipWith (positionLoss L) lp lbls y hy
  rw [heq, positionLoss, if_pos (hall b hb)]

theorem perSeqLoss_all_ignore (L : LabelSmoothingLoss) (lp : List (List ℝ))
    (lbls : List ℤ) (hall : ∀ x ∈ lbls, x = L.ignoreId) :
    perSeqLoss L lp lbls = 0 := by
  unfold perSeqLoss
  rw [seqLossSum_all_ignore L lp lbls hall]
  by_cases h : L.lengthNormalized <;> simp [h]

/-- C7: the training forward call fails on the batch-size assert (lines
133-135 of `src/models/rnnlm.py`) exactly when the batch dimensions of input
ids, input lengths, labels and label lengths are not all equal; when they are
all equal the call proceeds past the check into the encoder and the
criterion. -/
theorem forward_batch_size_check {S : Type} (m : RNNLM S) (input : List (List ℕ))
    (inputLength : List ℕ) (labels : List (List ℤ)) (labelsLength : List ℕ) :
    (¬(input.length = inputLength.length ∧ inputLength.length = labels.length ∧
        labels.length = labelsLength.length) →
      RNNLM.forward m input inputLength labels labelsLength =
        Except.error TorchError.assertionError) ∧
    ((input.length = inputLength.length ∧ inputLength.length = labels.length ∧
        labels.length = labelsLength.length) →
      RNNLM.forward m input inputLength labels labelsLength =
        (m.model input inputLength).map fun logit =>
          let r := m.criterion.forward logit labels
          (r.1, r.2.map Real.exp,
            if m.lengthNormalizedLoss then Real.exp r.1
            else r.1 * (input.length : ℝ) / (labelsLength.sum : ℝ))) := by
  constructor
  · intro h
    simp only [RNNLM.forward, if_neg h]
  · intro h
    simp only [RNNLM.forward, if_pos h]

/-- C7 witness: a batch of one input sequence with empty length, label and
label-length tensors fails the batch-size check. -/
theorem forward_batch_size_check_witness :
    RNNLM.forward (mkRNNLM 2 constEncoderPair 0 false) [[0]] [] [] [] =
      Except.error TorchError.assertionError :=
  (forward_batch_size_check (mkRNNLM 2 constEncoderPair 0 false) [[0]] [] [] []).1
    (by decide)

theorem rnnlm_forward_ok {S : Type} (vocabSize : ℕ)
    (enc : EncoderModule S) (lsm : ℝ) (norm : Bool) (input : List (List ℕ))
    (inputLength : List ℕ) (labels : List (List ℤ)) (labelsLength : List ℕ)
    (logit : List (List (List ℝ)))
    (hdims : input.length = inputLength.length ∧
      inputLength.length = labels.length ∧ labels.length = labelsLength.length)
    (hok : enc.1 input inputLength = Except.ok logit) :
    RNNLM.forward (mkRNNLM vocabSize enc lsm norm) input inputLength labels
        labelsLength =
      Except.ok
        (((mkRNNLM (S := S) vocabSize enc lsm norm).criterion.forward logit labels).1,
          (((mkRNNLM (S := S) vocabSize enc lsm norm).criterion.forward logit
            labels).2).map Real.exp,
          if norm then
            Real.exp (((mkRNNLM (S := S) vocabSize enc lsm norm).criterion.forward
              logit labels).1)
          else
            ((mkRNNLM (S := S) vocabSize enc lsm norm).criterion.forward logit
              labels).1 * (input.length : ℝ) / (labelsLength.sum : ℝ)) := by
  simp only [RNNLM.forward, if_pos hdims]
  have hm : (mkRNNLM (S := S) vocabSize enc lsm norm).model = enc.1 := rfl
  rw [hm, hok]
  rfl

/-- C4: for every training forward call (over every constructor configuration
and every injected encoder result), the returned per-sequence perplexity is
the exponential of the criterion's per-sequence loss, and the returned batch
perplexity is `exp(loss)` when length-normalized loss is configured and
`loss * batch_size / total_label_tokens` when it is not — the formulas of
lines 137-144 of `src/models/rnnlm.py`, tracking the one normalization flag
the constructor passes to the criterion. -/
theorem perplexity_tracks_loss_mode {S : Type} (vocabSize : ℕ)
    (enc : EncoderModule S) (lsm : ℝ) (norm : Bool) (input : List (List ℕ))
    (inputLength : List ℕ) (labels : List (List ℤ)) (labelsLength : List ℕ)
    (logit : List (List (List ℝ)))
    (hdims : input.length = inputLength.length ∧
      inputLength.length = labels.length ∧ labels.length = labelsLength.length)
    (hok : enc.1 input inputLength = Except.ok logit) :
    RNNLM.forward (mkRNNLM vocabSize enc lsm norm) input inputLength labels
        labelsLength =
      Except.ok
        (((mkRNNLM (S := S) vocabSize enc lsm norm).criterion.forward logit labels).1,
          (((mkRNNLM (S := S) vocabSize enc lsm norm).criterion.forward logit
            labels).2).map Real.exp,
          if norm then
            Real.exp (((mkRNNLM (S := S) vocabSize enc lsm norm).criterion.forward
              logit labels).1)
          else
            ((mkRNNLM (S := S) vocabSize enc lsm norm).criterion.forward logit
              labels).1 * (input.length : ℝ) / (labelsLength.sum : ℝ)) :=
  rnnlm_forward_ok vocabSize enc lsm norm input inputLength labels labelsLength
    logit hdims hok

/-- C4 witness: a concrete normalized-mode call returns the criterion's loss,
the exponentials of its per-sequence losses, and the exponential of the loss
as batch perplexity. -/
theorem perplexity_tracks_loss_mode_witness :
    RNNLM.forward (mkRNNLM 2 constEncoderPair 0 true) [[0]] [1] [[-1]] [1] =
      Except.ok
        (((mkRNNLM 2 constEncoderPair 0 true).criterion.forward [[[0, 0]]] [[-1]]).1,
          (((mkRNNLM 2 constEncoderPair 0 true).criterion.forward [[[0, 0]]]
            [[-1]]).2).map Real.exp,
          Real.exp (((mkRNNLM 2 constEncoderPair 0 true).criterion.forward
            [[[0, 0]]] [[-1]]).1)) :=
  perplexity_tracks_loss_mode 2 constEncoderPair 0 true [[0]] [1] [[-1]] [1]
    [[[0, 0]]] (by decide) rfl

/-- C6: a sequence whose labels are all the ignore id `-1` contributes exactly
0 to the criterion's loss sums, its per-sequence perplexity is `exp 0 = 1`
(defined, not NaN), and when every sequence of the batch is all-ignored the
returned scalar loss is exactly 0. -/
theorem all_ignore_labels_zero_loss {S : Type} (vocabSize : ℕ)
    (enc : EncoderModule S) (lsm : ℝ) (norm : Bool) (input : List (List ℕ))
    (inputLength : List ℕ) (labels : List (List ℤ)) (labelsLength : List ℕ)
    (logit : List (List (List ℝ))) (b : ℕ) (row : List ℤ)
    (hdims : input.length = inputLength.length ∧
      inputLength.length = labels.length ∧ labels.length = labelsLength.length)
    (hok : enc.1 input inputLength = Except.ok logit)
    (hlen : logit.length = labels.length)
    (hrow : labels.get? b = some row) (hall : ∀ x ∈ row, x = (-1 : ℤ)) :
    ∃ loss ppl tppl,
      RNNLM.forward (mkRNNLM vocabSize enc lsm norm) input inputLength labels
          labelsLength = Except.ok (loss, ppl, tppl) ∧
        ppl.get? b = some 1 ∧
        (∀ lp : List (List ℝ),
          seqLossSum (mkRNNLM (S := S) vocabSize enc lsm norm).criterion lp row = 0) ∧
        ((∀ r ∈ labels, ∀ x ∈ r, x = (-1 : ℤ)) → loss = 0) := by
  set L := (mkRNNLM (S := S) vocabSize enc lsm norm).criterion with hL
  have hIg : L.ignoreId = -1 := rfl
  have hallL : ∀ x ∈ row, x = L.ignoreId := by rw [hIg]; exact hall
  have hblt : b < labels.length := by
    by_contra hcon
    push_neg at hcon
    rw [List.get?_eq_none.2 hcon] at hrow
    exact Option.noConfusion hrow
  have hblt2 : b < logit.length := by rw [hlen]; exact hblt
  have hlp : logit.get? b = some (logit.get ⟨b, hblt2⟩) := List.get?_eq_get hblt2
  refine ⟨(L.forward logit labels).1, ((L.forward logit labels).2).map Real.exp,
    if norm then Real.exp (L.forward logit labels).1
    else (L.forward logit labels).1 * (input.length : ℝ) / (labelsLength.sum : ℝ),
    ?_, ?_, ?_, ?_⟩
  · exact rnnlm_forward_ok vocabSize enc lsm norm input inputLength
      labels labelsLength logit hdims hok
  · have hz : (List.zipWith (perSeqLoss L) logit labels).get? b =
        some (perSeqLoss L (logit.get ⟨b, hblt2⟩) row) :=
      zipWith_get?_eq (perSeqLoss L) b logit labels _ _ hlp hrow
    have hfwd : (L.forward logit labels).2 = List.zipWith (perSeqLoss L) logit labels := rfl
    rw [hfwd, List.get?_map, hz]
    rw [perSeqLoss_all_ignore L _ row hallL]
    simp [Real.exp_zero]
  · intro lp
    exact seqLossSum_all_ignore L lp row hallL
  · intro hallb
    have hsums : ∀ y ∈ List.zipWith (seqLossSum L) logit labels, y = 0 := by
      intro y hy
      obtain ⟨a, r, _, hr, heq⟩ := mem_zipWith (seqLossSum L) logit labels y hy
      rw [heq]
      apply seqLossSum_all_ignore L a r
      intro x hx
      rw [hIg]
      exact hallb r hr x hx
    have hzero : (List.zipWith (seqLossSum L) logit labels).sum = 0 :=
      List.sum_eq_zero hsums
    have hfwd1 : (L.forward logit labels).1 =
        if L.lengthNormalized then (List.zipWith (seqLossSum L) logit labels).sum /
          ((labels.map fun lb => (seqCount L lb : ℝ)).sum)
        else (List.zipWith (seqLossSum L) logit labels).sum := rfl
    rw [hfwd1, hzero]
    by_cases h : L.lengthNormalized <;> simp [h]

/-- C6 witness: a single sequence of length 1 whose one label is `-1` yields
scalar loss contribution 0 and per-sequence perplexity 1. -/
theorem all_ignore_labels_zero_loss_witness :
    ∃ loss ppl tppl,
      RNNLM.forward (mkRNNLM 2 constEncoderPair 0 false) [[0]] [1] [[-1]] [1] =
          Except.ok (loss, ppl, tppl) ∧
        ppl.get? 0 = some 1 ∧
        (∀ lp : List (List ℝ),
          seqLossSum (mkRNNLM (S := Unit) 2 constEncoderPair 0 false).criterion
            lp [-1] = 0) ∧
        ((∀ r ∈ [[(-1 : ℤ)]], ∀ x ∈ r, x = (-1 : ℤ)) → loss = 0) :=
  all_ignore_labels_zero_loss 2 constEncoderPair 0 false [[0]] [1] [[-1]] [1]
    [[[0, 0]]] 0 [-1] (by decide) rfl rfl rfl (by decide)

/-- C9: for every cell list (hence every cell type, the GRU-style single-state
cells included), the public single-step interface carries exactly two state
tensors: `RNNLM.forward_step` hands the caller's `(state_m, state_c)` pair to
the encoder's `forward_step` and returns the new state as the returned pair's
two tensors (lines 146-153 of `src/models/rnnlm.py`). -/
theorem forward_step_two_state_tensors {V W : Type} (cfg : RNNEncoder V W)
    (vocabSize : ℕ) (lsm : ℝ) (norm : Bool) (input : List (List ℕ))
    (seqLen : List ℕ) (stateM stateC : List (List (List W))) :
    RNNLM.forwardStep (mkRNNLM vocabSize (encoderAsModule cfg) lsm norm)
        input seqLen stateM stateC =
      (RNNEncoder.forwardStep cfg input seqLen stateM stateC).map
        fun os => (os.1, os.2.1, os.2.2) := rfl

/-- C10: for every constructor configuration of `RNNLM`, the loss criterion is
built with ignore id `-1` (lines 116-117 of `src/models/rnnlm.py`; the
constructor exposes no parameter for it), and a position's loss is skipped
exactly when the label is `-1`: an ignored label contributes 0, any other
label contributes its smoothed cross-entropy. -/
theorem ignore_id_fixed_minus_one {S : Type} (vocabSize : ℕ)
    (enc : EncoderModule S) (lsm : ℝ) (norm : Bool) :
    (mkRNNLM vocabSize enc lsm norm).criterion.ignoreId = -1 ∧
    ∀ (logp : List ℝ) (lbl : ℤ),
      (lbl = -1 →
        positionLoss (mkRNNLM vocabSize enc lsm norm).criterion logp lbl = 0) ∧
      (lbl ≠ -1 →
        positionLoss (mkRNNLM vocabSize enc lsm norm).criterion logp lbl =
          crossEntropy (smoothedTarget vocabSize lsm lbl) logp) := by
  refine ⟨rfl, fun logp lbl => ⟨fun h => ?_, fun h => ?_⟩⟩
  · rw [positionLoss, if_pos]
    exact h
  · rw [positionLoss, if_neg]
    · rfl
    · exact h

/-- C10 witness: the criterion of a concretely constructed `RNNLM` has ignore
id `-1`. -/
theorem ignore_id_fixed_minus_one_witness :
    (mkRNNLM 2 constEncoderPair 0 false).criterion.ignoreId = -1 :=
  (ignore_id_fixed_minus_one 2 constEncoderPair 0 false).1

end NeuralLM
